import Mathlib

/-!
Shallow embedding of the marketplace stock/price synchronization scripts
(`seller.py` for Ozon and `market.py` for Yandex.Market).

Conventions of the embedding:
* Python dictionaries holding a supplier row are modelled by the structure
  `Watch` with the three fields the code reads (`Код`, `Количество`, `Цена`),
  each already passed through `str(...)` as the code does.
* Python code that can raise (`int(...)` on a non-numeric string, a loop that
  would request pages beyond the provided response stream) is modelled with
  `Option`: `none` stands for an exception / divergence.
* `seller.create_stocks` mutates its `offer_ids` argument via `list.remove`;
  the embedding passes that list as explicit state: `create_stocks_loop`
  returns both the accumulated records and the final state of `offer_ids`.
* HTTP calls carry no logic; pagination is modelled by the finite stream of
  responses the server would return, consumed in order.
-/

/-- Python `str.strip()` on a list of characters: drop whitespace from both
ends (model of the stripping `int()` performs on its string argument). -/
def pyStripWs (s : List Char) : List Char :=
  ((s.dropWhile Char.isWhitespace).reverse.dropWhile Char.isWhitespace).reverse

/-- Value of a nonempty all-digit character list, `none` otherwise. -/
def digitsVal (l : List Char) : Option Nat :=
  if l ≠ [] ∧ l.all Char.isDigit then
    some (l.foldl (fun acc c => acc * 10 + (c.toNat - 48)) 0)
  else none

/-- Model of Python `int(s)` on a string: strip whitespace, optional sign,
then a nonempty digit sequence; `none` models the `ValueError` raised on any
other input. -/
def pyInt (s : String) : Option Int :=
  match pyStripWs s.toList with
  | '-' :: rest => (digitsVal rest).map (fun n => -(n : Int))
  | '+' :: rest => (digitsVal rest).map (fun n => (n : Int))
  | t => (digitsVal t).map (fun n => (n : Int))

/-- A supplier spreadsheet row, restricted to the fields the code reads:
`Код` (article code), `Количество` (quantity), `Цена` (price), as strings. -/
structure Watch where
  kod : String
  kolichestvo : String
  cena : String
deriving DecidableEq

/-- Quantity normalization shared by both `create_stocks` variants
(`seller.py` lines 203-209, `market.py` lines 179-185): the literal `">10"`
becomes 100, the literal `"1"` becomes 0, anything else goes through
`int(...)` (which may raise, hence `Option`). -/
def normalizeCount (count : String) : Option Int :=
  if count = ">10" then some 100
  else if count = "1" then some 0
  else pyInt count

/-- An Ozon stock record as built by `seller.create_stocks`:
`{"offer_id": ..., "stock": ...}`. -/
structure StockRecord where
  offer_id : String
  stock : Int
deriving DecidableEq

/-- The first loop of `seller.create_stocks` (lines 201-211) with the mutable
`offer_ids` list passed as explicit state.  For each remnant whose code is in
the current `offer_ids`, a record with the normalized quantity is appended and
the code is removed from `offer_ids` (`list.remove` drops the first
occurrence, modelled by `List.erase`).  Returns the records together with the
final state of `offer_ids`; `none` models the `ValueError` from `int(...)`. -/
def create_stocks_loop : List Watch → List String → Option (List StockRecord × List String)
  | [], offerIds => some ([], offerIds)
  | w :: ws, offerIds =>
    if w.kod ∈ offerIds then
      (normalizeCount w.kolichestvo).bind fun stock =>
        (create_stocks_loop ws (offerIds.erase w.kod)).map fun p =>
          (⟨w.kod, stock⟩ :: p.1, p.2)
    else create_stocks_loop ws offerIds

/-- `seller.create_stocks` (lines 179-215): reconcile the supplier remnants
against the marketplace offer ids, then append a zero-stock record for every
offer id left over after the first loop. -/
def create_stocks (watchRemnants : List Watch) (offerIds : List String) :
    Option (List StockRecord) :=
  (create_stocks_loop watchRemnants offerIds).map fun p =>
    p.1 ++ p.2.map (fun offer_id => ⟨offer_id, 0⟩)

/-- The state of the caller's `offer_ids` list after `seller.create_stocks`
returns (the Python function mutates the list in place). -/
def create_stocks_final_offer_ids (watchRemnants : List Watch)
    (offerIds : List String) : Option (List String) :=
  (create_stocks_loop watchRemnants offerIds).map Prod.snd

/-- Characters kept by `re.sub("[^0-9]", "", s)`: the ASCII digits. -/
def reKeepDigits (l : List Char) : List Char :=
  l.filter Char.isDigit

/-- Model of `price.split(".")[0]` for the single-character separator `"."`:
the characters strictly before the first `'.'` (the whole string when there is
no `'.'`). -/
def takeBeforeFirstDot : List Char → List Char
  | [] => []
  | c :: cs => if c = '.' then [] else c :: takeBeforeFirstDot cs

/-- `seller.price_conversion` (line 267):
`re.sub("[^0-9]", "", price.split(".")[0])`. -/
def price_conversion (price : String) : String :=
  String.mk (reKeepDigits (takeBeforeFirstDot price.toList))

/-- Modelled from the spec wording for comparison with `price_conversion`:
the digit characters of the substring before the first dot, every non-digit
character (anything outside the range 0-9) removed. -/
def price_conversion_spec (s : String) : String :=
  String.mk ((s.toList.takeWhile (fun c => c != '.')).filter
    (fun c => decide ('0' ≤ c ∧ c ≤ '9')))

/-- An Ozon price record as built by `seller.create_prices`. -/
structure PriceRecord where
  auto_action_enabled : String
  currency_code : String
  offer_id : String
  old_price : String
  price : String
deriving DecidableEq

/-- `seller.create_prices` (lines 218-249): one price record per remnant whose
code is in `offer_ids` (this function only reads `offer_ids`, it does not
mutate it). -/
def create_prices (watchRemnants : List Watch) (offerIds : List String) :
    List PriceRecord :=
  watchRemnants.filterMap fun w =>
    if w.kod ∈ offerIds then
      some ⟨"UNKNOWN", "RUB", w.kod, "0", price_conversion w.cena⟩
    else none

/-- One element of the `items` array of a Yandex.Market stock record. -/
structure MarketStockItem where
  count : Int
  type : String
  updatedAt : String
deriving DecidableEq

/-- A Yandex.Market stock record as built by `market.create_stocks`. -/
structure MarketStockRecord where
  sku : String
  warehouseId : String
  items : List MarketStockItem
deriving DecidableEq

/-- The first loop of `market.create_stocks` (lines 177-199), same structure
as the Ozon variant but producing Yandex.Market records; `date` stands for the
timestamp computed once at the top of the function. -/
def market_create_stocks_loop (warehouse_id date : String) :
    List Watch → List String → Option (List MarketStockRecord × List String)
  | [], offerIds => some ([], offerIds)
  | w :: ws, offerIds =>
    if w.kod ∈ offerIds then
      (normalizeCount w.kolichestvo).bind fun stock =>
        (market_create_stocks_loop warehouse_id date ws (offerIds.erase w.kod)).map fun p =>
          (⟨w.kod, warehouse_id, [⟨stock, "FIT", date⟩]⟩ :: p.1, p.2)
    else market_create_stocks_loop warehouse_id date ws offerIds

/-- `market.create_stocks` (lines 153-215): reconcile, then append a
zero-count record for every leftover offer id. -/
def market_create_stocks (watchRemnants : List Watch) (offerIds : List String)
    (warehouse_id date : String) : Option (List MarketStockRecord) :=
  (market_create_stocks_loop warehouse_id date watchRemnants offerIds).map fun p =>
    p.1 ++ p.2.map (fun offer_id => ⟨offer_id, warehouse_id, [⟨0, "FIT", date⟩]⟩)

/-- The Yandex.Market record built for an Ozon-style record: same id (as
`sku`), same normalized count inside `items[0]`. -/
def toMarketRec (warehouse_id date : String) (r : StockRecord) : MarketStockRecord :=
  ⟨r.offer_id, warehouse_id, [⟨r.stock, "FIT", date⟩]⟩

/-- A Yandex.Market price record as built by `market.create_prices`, restricted
to the fields the code fills (`id`, `price.value`, `price.currencyId`). -/
structure MarketPrice where
  id : String
  value : Int
  currencyId : String
deriving DecidableEq

/-- `market.create_prices` (lines 218-254): one price record per remnant whose
code is in `offer_ids`; the price string goes through `price_conversion` and
then `int(...)`, which may raise (hence `Option`). -/
def market_create_prices : List Watch → List String → Option (List MarketPrice)
  | [], _ => some []
  | w :: ws, offerIds =>
    if w.kod ∈ offerIds then
      (pyInt (price_conversion w.cena)).bind fun v =>
        (market_create_prices ws offerIds).map fun ps => ⟨w.kod, v, "RUR"⟩ :: ps
    else market_create_prices ws offerIds

/-- `seller.divide` (lines 270-273): chunk `lst` into consecutive slices
`lst[i : i + n]` of `n` elements each (the last one possibly shorter).  For
`n = 0` Python's `range` raises `ValueError`; the claims only concern `n > 0`,
and the model returns `[]` in that never-exercised case. -/
def divide (lst : List α) (n : Nat) : List (List α) :=
  if lst.isEmpty || n == 0 then []
  else lst.take n :: divide (lst.drop n) n
termination_by lst.length
decreasing_by
  rename_i h
  simp [List.isEmpty_iff, not_or] at h
  have : 0 < lst.length := List.length_pos.mpr h.1
  simp [List.length_drop]
  omega

/-- The batches `seller.upload_stocks` (line 312) passes to `update_stocks`:
`divide(stocks, 100)` over the reconciled stocks. -/
def seller_upload_stocks_batches (watchRemnants : List Watch)
    (offerIds : List String) : Option (List (List StockRecord)) :=
  (create_stocks watchRemnants offerIds).map (fun stocks => divide stocks 100)

/-- The batches `seller.upload_prices` (line 292) passes to `update_price`:
`divide(prices, 1000)`. -/
def seller_upload_prices_batches (watchRemnants : List Watch)
    (offerIds : List String) : List (List PriceRecord) :=
  divide (create_prices watchRemnants offerIds) 1000

/-- The batches `market.upload_stocks` (line 307) passes to `update_stocks`:
`divide(stocks, 2000)`. -/
def market_upload_stocks_batches (watchRemnants : List Watch)
    (offerIds : List String) (warehouse_id date : String) :
    Option (List (List MarketStockRecord)) :=
  (market_create_stocks watchRemnants offerIds warehouse_id date).map
    (fun stocks => divide stocks 2000)

/-- The batches `market.upload_prices` (line 278) passes to `update_price`:
`divide(prices, 500)`. -/
def market_upload_prices_batches (watchRemnants : List Watch)
    (offerIds : List String) : Option (List (List MarketPrice)) :=
  (market_create_prices watchRemnants offerIds).map (fun prices => divide prices 500)

/-- An item of one Ozon product-list page, restricted to the field the code
reads (`offer_id`). -/
structure OzonProduct where
  offer_id : String
deriving DecidableEq

/-- One response of `seller.get_product_list`: the page items, the reported
catalog total, and the `last_id` cursor (threaded into the next request; in
the stream model the cursor does not select the next response, order does). -/
structure OzonPage where
  items : List OzonProduct
  total : Nat
  last_id : String
deriving DecidableEq

/-- The `while True` loop of `seller.get_offer_ids` (lines 69-77) over the
finite stream of responses the server returns, with the accumulated
`product_list` as explicit state: extend the accumulator with the page items
and stop when the reported total equals the accumulated length.  `none` means
the loop would request a page beyond the provided stream (divergence of the
real loop on an endless server). -/
def ozon_collect : List OzonPage → List OzonProduct → Option (List OzonProduct)
  | [], _ => none
  | p :: ps, acc =>
    if p.total = (acc ++ p.items).length then some (acc ++ p.items)
    else ozon_collect ps (acc ++ p.items)

/-- `seller.get_offer_ids` (lines 52-81): run the pagination loop, then map
each accumulated product to its `offer_id`. -/
def ozon_get_offer_ids (responses : List OzonPage) : Option (List String) :=
  (ozon_collect responses []).map (List.map OzonProduct.offer_id)

/-- An entry of one Yandex.Market page, restricted to the field the code reads
(`offer.shopSku`). -/
structure MarketEntry where
  shopSku : String
deriving DecidableEq

/-- One response of `market.get_product_list`: the page entries and the
`paging.nextPageToken` (the empty string models a missing/empty token, which
is falsy in `if not page`). -/
structure MarketPage where
  offerMappingEntries : List MarketEntry
  nextPageToken : String
deriving DecidableEq

/-- The `while True` loop of `market.get_offer_ids` (lines 141-146) over the
finite stream of responses: extend the accumulator and stop when the page
token of the page just consumed is empty.  `none` means the loop would
request a page beyond the provided stream. -/
def market_collect : List MarketPage → List MarketEntry → Option (List MarketEntry)
  | [], _ => none
  | p :: ps, acc =>
    if p.nextPageToken = "" then some (acc ++ p.offerMappingEntries)
    else market_collect ps (acc ++ p.offerMappingEntries)

/-- `market.get_offer_ids` (lines 121-150): run the pagination loop, then map
each accumulated entry to its `shopSku`. -/
def market_get_offer_ids (responses : List MarketPage) : Option (List String) :=
  (market_collect responses []).map (List.map MarketEntry.shopSku)

/-- The Ozon response stream signals its end cleanly: it is nonempty, no page
before the last satisfies the break condition (reported total equals the
running count of accumulated items), and the last page does.  `acc` is the
number of items accumulated before the remaining pages. -/
def ozonEndsCleanly : List OzonPage → Nat → Bool
  | [], _ => false
  | [p], acc => p.total = acc + p.items.length
  | p :: ps, acc =>
    decide (p.total ≠ acc + p.items.length) && ozonEndsCleanly ps (acc + p.items.length)

/-- Some page of the Ozon stream satisfies the break condition of the loop
(reported total equals the running count after consuming that page). -/
def ozonHasSignal : List OzonPage → Nat → Bool
  | [], _ => false
  | p :: ps, acc =>
    decide (p.total = acc + p.items.length) || ozonHasSignal ps (acc + p.items.length)

/-- The Yandex.Market response stream signals its end cleanly: nonempty, all
pages before the last carry a nonempty `nextPageToken`, the last one an empty
token. -/
def marketEndsCleanly : List MarketPage → Bool
  | [] => false
  | [p] => p.nextPageToken = ""
  | p :: ps => decide (p.nextPageToken ≠ "") && marketEndsCleanly ps

/-- The exception classes relevant to the guarded block of `main`, with the
catch-all `Exception` base class; `OtherException` stands for any raised class
not otherwise listed (every Python exception caught by `except Exception`
derives from `Exception`). -/
inductive ExcClass where
  | ReadTimeout
  | ConnectTimeout
  | ConnectionErr
  | Timeout
  | HTTPError
  | RequestException
  | ValueError
  | OSError
  | Exception
  | OtherException
deriving DecidableEq, Fintype

/-- Python method-resolution ancestor chain of each class, the class itself
included (per the `requests` library: `RequestException` derives from
`IOError` = `OSError`; `ReadTimeout` from `Timeout`; `ConnectTimeout` from
both `ConnectionError` and `Timeout`). -/
def ancestors : ExcClass → List ExcClass
  | .ReadTimeout => [.ReadTimeout, .Timeout, .RequestException, .OSError, .Exception]
  | .ConnectTimeout =>
      [.ConnectTimeout, .ConnectionErr, .Timeout, .RequestException, .OSError, .Exception]
  | .ConnectionErr => [.ConnectionErr, .RequestException, .OSError, .Exception]
  | .Timeout => [.Timeout, .RequestException, .OSError, .Exception]
  | .HTTPError => [.HTTPError, .RequestException, .OSError, .Exception]
  | .RequestException => [.RequestException, .OSError, .Exception]
  | .ValueError => [.ValueError, .Exception]
  | .OSError => [.OSError, .Exception]
  | .Exception => [.Exception]
  | .OtherException => [.OtherException, .Exception]

/-- The `except` clauses of `main` in source order (`seller.py` lines 342-347,
`market.py` lines 352-357): `requests.exceptions.ReadTimeout`,
`requests.exceptions.ConnectionError`, `Exception`. -/
def main_handlers : List ExcClass :=
  [.ReadTimeout, .ConnectionErr, .Exception]

/-- Python `try`/`except` clause selection: the first handler class that is an
ancestor of the raised class catches the exception. -/
def catch_exception (e : ExcClass) : Option ExcClass :=
  main_handlers.find? (fun h => (ancestors e).contains h)

/-- What each `except` clause of `main` does: print one specific message. -/
inductive HandlerAction where
  | printTimeout
  | printConnection
  | printOther
deriving DecidableEq, Fintype

/-- Outcome of `main` as observed by its caller. -/
inductive MainOutcome where
  | completed
  | printedMessage (action : HandlerAction)
  | escaped (e : ExcClass)
deriving DecidableEq

/-- The `try`/`except` structure of `main` (identical in both files), as a
function of the outcome of the guarded synchronization block: on success
`main` completes; on an exception the matching clause only prints; an
exception matching no clause would escape. -/
def main_handle (blockResult : Except ExcClass Unit) : MainOutcome :=
  match blockResult with
  | .ok _ => .completed
  | .error e =>
    match catch_exception e with
    | some .ReadTimeout => .printedMessage .printTimeout
    | some .ConnectionErr => .printedMessage .printConnection
    | some _ => .printedMessage .printOther
    | none => .escaped e

/-! Helper lemmas about the reconciliation loop. -/

/-- The final `offer_ids` state of the loop is a sublist of the input. -/
theorem create_stocks_loop_rest_sublist :
    ∀ (ws : List Watch) (ids : List String) (recs : List StockRecord)
      (rest : List String),
    create_stocks_loop ws ids = some (recs, rest) → rest.Sublist ids := by
  intro ws
  induction ws with
  | nil =>
    intro ids recs rest h
    simp [create_stocks_loop] at h
    simp [h.2]
  | cons w ws ih =>
    intro ids recs rest h
    by_cases hmem : w.kod ∈ ids
    · rw [create_stocks_loop, if_pos hmem] at h
      cases hn : normalizeCount w.kolichestvo with
      | none => rw [hn] at h; simp [Option.bind] at h
      | some v =>
        rw [hn] at h
        cases hl : create_stocks_loop ws (ids.erase w.kod) with
        | none => rw [hl] at h; simp at h
        | some p =>
          rw [hl] at h
          simp at h
          have := ih (ids.erase w.kod) p.1 p.2 (by rw [hl])
          exact (h.2 ▸ this).trans (List.erase_sublist w.kod ids)
    · rw [create_stocks_loop, if_neg hmem] at h
      exact ih ids recs rest h

/-- Inversion of one matched step of the loop. -/
theorem create_stocks_loop_cons_mem {w : Watch} {ws : List Watch}
    {ids : List String} {recs : List StockRecord} {rest : List String}
    (hmem : w.kod ∈ ids)
    (h : create_stocks_loop (w :: ws) ids = some (recs, rest)) :
    ∃ v recs₁, normalizeCount w.kolichestvo = some v ∧
      create_stocks_loop ws (ids.erase w.kod) = some (recs₁, rest) ∧
      recs = ⟨w.kod, v⟩ :: recs₁ := by
  rw [create_stocks_loop, if_pos hmem] at h
  cases hn : normalizeCount w.kolichestvo with
  | none => rw [hn] at h; simp at h
  | some v =>
    rw [hn] at h
    cases hl : create_stocks_loop ws (ids.erase w.kod) with
    | none => rw [hl] at h; simp at h
    | some p =>
      obtain ⟨recs₁, rest₁⟩ := p
      rw [hl] at h
      simp at h
      exact ⟨v, recs₁, rfl, by simp [hl, h.2], h.1.symm⟩

/-- The codes of the emitted records together with the leftover ids form a
permutation of the input `offer_ids`: the loop moves matched ids from the
list into records, one occurrence at a time. -/
theorem create_stocks_loop_perm :
    ∀ (ws : List Watch) (ids : List String) (recs : List StockRecord)
      (rest : List String),
    create_stocks_loop ws ids = some (recs, rest) →
    (recs.map StockRecord.offer_id ++ rest).Perm ids := by
  intro ws
  induction ws with
  | nil =>
    intro ids recs rest h
    simp [create_stocks_loop] at h
    simp [h.1, h.2]
  | cons w ws ih =>
    intro ids recs rest h
    by_cases hmem : w.kod ∈ ids
    · obtain ⟨v, recs₁, hn, hl, hrecs⟩ := create_stocks_loop_cons_mem hmem h
      have hperm := ih (ids.erase w.kod) recs₁ rest hl
      subst hrecs
      simp only [List.map_cons, List.cons_append]
      exact (hperm.cons w.kod).trans (List.perm_cons_erase hmem).symm
    · rw [create_stocks_loop, if_neg hmem] at h
      exact ih ids recs rest h

/-- Every emitted record comes from a remnant: its id is that remnant's code
and its stock that remnant's normalized quantity. -/
theorem create_stocks_loop_provenance :
    ∀ (ws : List Watch) (ids : List String) (recs : List StockRecord)
      (rest : List String),
    create_stocks_loop ws ids = some (recs, rest) →
    ∀ r ∈ recs, ∃ w ∈ ws, w.kod = r.offer_id ∧
      normalizeCount w.kolichestvo = some r.stock := by
  intro ws
  induction ws with
  | nil =>
    intro ids recs rest h
    simp [create_stocks_loop] at h
    simp [h.1]
  | cons w ws ih =>
    intro ids recs rest h r hr
    by_cases hmem : w.kod ∈ ids
    · obtain ⟨v, recs₁, hn, hl, hrecs⟩ := create_stocks_loop_cons_mem hmem h
      subst hrecs
      rcases List.mem_cons.mp hr with h1 | h1
      · exact ⟨w, List.mem_cons_self _ _, by rw [h1], by rw [h1, hn]⟩
      · obtain ⟨w', hw', hkod, hnorm⟩ := ih (ids.erase w.kod) recs₁ rest hl r h1
        exact ⟨w', List.mem_cons_of_mem _ hw', hkod, hnorm⟩
    · rw [create_stocks_loop, if_neg hmem] at h
      obtain ⟨w', hw', hkod, hnorm⟩ := ih ids recs rest h r hr
      exact ⟨w', List.mem_cons_of_mem _ hw', hkod, hnorm⟩

/-- When the input ids are duplicate-free, no leftover id matches any remnant
code: every remnant whose code is in the list gets it removed. -/
theorem create_stocks_loop_rest_unmatched :
    ∀ (ws : List Watch) (ids : List String), ids.Nodup →
    ∀ (recs : List StockRecord) (rest : List String),
    create_stocks_loop ws ids = some (recs, rest) →
    ∀ c ∈ rest, ∀ w ∈ ws, w.kod ≠ c := by
  intro ws
  induction ws with
  | nil => intro ids _ recs rest h c _ w hw; simp at hw
  | cons w ws ih =>
    intro ids hnd recs rest h c hc w' hw'
    by_cases hmem : w.kod ∈ ids
    · obtain ⟨v, recs₁, hn, hl, hrecs⟩ := create_stocks_loop_cons_mem hmem h
      have hsub := create_stocks_loop_rest_sublist ws (ids.erase w.kod) recs₁ rest hl
      rcases List.mem_cons.mp hw' with h1 | h1
      · subst h1
        have : c ∈ ids.erase w'.kod := hsub.mem hc
        exact fun he => ((hnd.mem_erase_iff.mp this).1 he.symm)
      · exact ih (ids.erase w.kod) (hnd.erase _) recs₁ rest hl c hc w' h1
    · rw [create_stocks_loop, if_neg hmem] at h
      rcases List.mem_cons.mp hw' with h1 | h1
      · subst h1
        have hsub := create_stocks_loop_rest_sublist ws ids recs rest h
        exact fun he => hmem (he ▸ hsub.mem hc)
      · exact ih ids hnd recs rest h c hc w' h1

/-- The two reconciliation loops differ only in the shape of the emitted
record: the market loop is the seller loop with every record translated. -/
theorem market_loop_eq_seller_loop (warehouse_id date : String) :
    ∀ (ws : List Watch) (ids : List String),
    market_create_stocks_loop warehouse_id date ws ids =
      (create_stocks_loop ws ids).map
        (fun p => (p.1.map (toMarketRec warehouse_id date), p.2)) := by
  intro ws
  induction ws with
  | nil => intro ids; simp [market_create_stocks_loop, create_stocks_loop]
  | cons w ws ih =>
    intro ids
    by_cases hmem : w.kod ∈ ids
    · rw [market_create_stocks_loop, create_stocks_loop, if_pos hmem, if_pos hmem]
      cases hn : normalizeCount w.kolichestvo with
      | none => simp
      | some v =>
        rw [ih (ids.erase w.kod)]
        cases create_stocks_loop ws (ids.erase w.kod) with
        | none => simp
        | some p => simp [toMarketRec]
    · rw [market_create_stocks_loop, create_stocks_loop, if_neg hmem, if_neg hmem]
      exact ih ids

/-- `market.create_stocks` is `seller.create_stocks` with every record
translated to the Yandex.Market shape. -/
theorem market_create_stocks_eq (ws : List Watch) (ids : List String)
    (warehouse_id date : String) :
    market_create_stocks ws ids warehouse_id date =
      (create_stocks ws ids).map (List.map (toMarketRec warehouse_id date)) := by
  rw [market_create_stocks, create_stocks, market_loop_eq_seller_loop]
  cases create_stocks_loop ws ids with
  | none => simp
  | some p => simp [toMarketRec]

/-- Every chunk yielded by `divide` has at most `n` elements. -/
theorem divide_chunk_length_le (α : Type) (lst : List α) (n : Nat)
    (hn : 0 < n) : ∀ c ∈ divide lst n, c.length ≤ n := by
  intro c hc
  rw [divide] at hc
  by_cases he : lst.isEmpty || n == 0
  · rw [if_pos he] at hc; simp at hc
  · rw [if_neg he] at hc
    simp only [Bool.or_eq_true, List.isEmpty_iff, beq_iff_eq, not_or] at he
    rcases List.mem_cons.mp hc with h1 | h1
    · subst h1; simp [List.length_take]
    · exact divide_chunk_length_le α (lst.drop n) n hn c h1
termination_by lst.length
decreasing_by
  simp only [Bool.or_eq_true, List.isEmpty_iff, beq_iff_eq, not_or] at he
  have : 0 < lst.length := List.length_pos.mpr he.1
  simp [List.length_drop]; omega

/-- Concatenating the chunks of `divide` in order restores the input list. -/
theorem divide_flatten (α : Type) (lst : List α) (n : Nat) (hn : 0 < n) :
    (divide lst n).flatten = lst := by
  rw [divide]
  by_cases he : lst.isEmpty || n == 0
  · rw [if_pos he]
    simp only [Bool.or_eq_true, List.isEmpty_iff, beq_iff_eq] at he
    rcases he with h1 | h1
    · simp [h1]
    · omega
  · rw [if_neg he]
    simp only [Bool.or_eq_true, List.isEmpty_iff, beq_iff_eq, not_or] at he
    rw [List.flatten_cons, divide_flatten α (lst.drop n) n hn]
    exact List.take_append_drop n lst
termination_by lst.length
decreasing_by
  simp only [Bool.or_eq_true, List.isEmpty_iff, beq_iff_eq, not_or] at he
  have : 0 < lst.length := List.length_pos.mpr he.1
  simp [List.length_drop]; omega

/-- When the Ozon stream ends cleanly relative to the items accumulated so
far, the loop consumes every page and returns the concatenation of all page
items after the accumulator. -/
theorem ozon_collect_clean :
    ∀ (pages : List OzonPage) (acc : List OzonProduct),
    ozonEndsCleanly pages acc.length = true →
    ozon_collect pages acc = some (acc ++ (pages.map OzonPage.items).flatten) := by
  intro pages
  induction pages with
  | nil => intro acc h; simp [ozonEndsCleanly] at h
  | cons p ps ih =>
    intro acc h
    cases ps with
    | nil =>
      simp only [ozonEndsCleanly, decide_eq_true_eq] at h
      rw [ozon_collect, if_pos (by simp [h])]
      simp
    | cons q qs =>
      simp only [ozonEndsCleanly, Bool.and_eq_true, decide_eq_true_eq] at h
      rw [ozon_collect, if_neg (by simp [h.1])]
      have := ih (acc ++ p.items) (by simpa using h.2)
      rw [this]
      simp

/-- If some page of the Ozon stream satisfies the break condition, the loop
stops within the stream (it does not run off the end). -/
theorem ozon_collect_terminates :
    ∀ (pages : List OzonPage) (acc : List OzonProduct),
    ozonHasSignal pages acc.length = true →
    (ozon_collect pages acc).isSome := by
  intro pages
  induction pages with
  | nil => intro acc h; simp [ozonHasSignal] at h
  | cons p ps ih =>
    intro acc h
    simp only [ozonHasSignal, Bool.or_eq_true, decide_eq_true_eq] at h
    rw [ozon_collect]
    by_cases hb : p.total = (acc ++ p.items).length
    · rw [if_pos hb]; simp
    · rw [if_neg hb]
      rcases h with h1 | h1
      · exact absurd (by simpa using h1) hb
      · exact ih (acc ++ p.items) (by simpa using h1)

/-- When the Yandex.Market stream ends cleanly, the loop consumes every page
and returns the concatenation of all page entries after the accumulator. -/
theorem market_collect_clean :
    ∀ (pages : List MarketPage) (acc : List MarketEntry),
    marketEndsCleanly pages = true →
    market_collect pages acc =
      some (acc ++ (pages.map MarketPage.offerMappingEntries).flatten) := by
  intro pages
  induction pages with
  | nil => intro acc h; simp [marketEndsCleanly] at h
  | cons p ps ih =>
    intro acc h
    cases ps with
    | nil =>
      simp only [marketEndsCleanly, decide_eq_true_eq] at h
      rw [market_collect, if_pos h]
      simp
    | cons q qs =>
      simp only [marketEndsCleanly, Bool.and_eq_true, decide_eq_true_eq] at h
      rw [market_collect, if_neg h.1]
      rw [ih (acc ++ p.offerMappingEntries) h.2]
      simp

/-- If some page of the Yandex.Market stream carries an empty token, the loop
stops within the stream. -/
theorem market_collect_terminates :
    ∀ (pages : List MarketPage) (acc : List MarketEntry),
    (∃ p ∈ pages, p.nextPageToken = "") →
    (market_collect pages acc).isSome := by
  intro pages
  induction pages with
  | nil => intro acc h; simp at h
  | cons p ps ih =>
    intro acc h
    rw [market_collect]
    by_cases hb : p.nextPageToken = ""
    · rw [if_pos hb]; simp
    · rw [if_neg hb]
      rcases h with ⟨q, hq, hqt⟩
      rcases List.mem_cons.mp hq with h1 | h1
      · exact absurd (h1 ▸ hqt) hb
      · exact ih (acc ++ p.offerMappingEntries) ⟨q, h1, hqt⟩

/-- The record translation is injective. -/
theorem toMarketRec_injective (warehouse_id date : String) :
    Function.Injective (toMarketRec warehouse_id date) := by
  intro a b h
  cases a; cases b
  simp [toMarketRec] at h
  simp [h.1, h.2]

/-- Under duplicate-free input ids, the multiset of ids of the records built
by `create_stocks` is exactly the input id list: one record per id, none for
any other id. -/
theorem create_stocks_count (ws : List Watch) (ids : List String)
    (hnd : ids.Nodup) (out : List StockRecord)
    (h : create_stocks ws ids = some out) :
    ∀ id, (out.map StockRecord.offer_id).count id = if id ∈ ids then 1 else 0 := by
  intro id
  rw [create_stocks] at h
  cases hl : create_stocks_loop ws ids with
  | none => rw [hl] at h; simp at h
  | some p =>
    obtain ⟨matched, rest⟩ := p
    rw [hl] at h
    simp at h
    have hperm := create_stocks_loop_perm ws ids matched rest hl
    have hmap : out.map StockRecord.offer_id =
        matched.map StockRecord.offer_id ++ rest := by
      rw [← h]
      simp only [List.map_append, List.map_map]
      congr 1
      exact List.map_id'' (fun c => rfl) rest
    rw [hmap, hperm.count_eq]
    by_cases hmem : id ∈ ids
    · rw [if_pos hmem]
      exact List.count_eq_one_of_mem hnd hmem
    · rw [if_neg hmem]
      exact List.count_eq_zero_of_not_mem hmem

/-- Under duplicate-free input ids, an id matched by no remnant gets exactly
one record, the zero-stock one. -/
theorem create_stocks_unmatched (ws : List Watch) (ids : List String)
    (hnd : ids.Nodup) (id : String) (hid : id ∈ ids)
    (hno : ∀ w ∈ ws, w.kod ≠ id) (out : List StockRecord)
    (h : create_stocks ws ids = some out) :
    out.count ⟨id, 0⟩ = 1 ∧ ∀ r ∈ out, r.offer_id = id → r = ⟨id, 0⟩ := by
  rw [create_stocks] at h
  cases hl : create_stocks_loop ws ids with
  | none => rw [hl] at h; simp at h
  | some p =>
    obtain ⟨matched, rest⟩ := p
    rw [hl] at h
    simp at h
    have hprov := create_stocks_loop_provenance ws ids matched rest hl
    have hperm := create_stocks_loop_perm ws ids matched rest hl
    have hnotin : id ∉ matched.map StockRecord.offer_id := by
      intro hmem
      obtain ⟨r, hr, hrid⟩ := List.mem_map.mp hmem
      obtain ⟨w, hw, hkod, _⟩ := hprov r hr
      exact hno w hw (hkod.trans hrid)
    have hcnt_ids : List.count id ids = 1 := List.count_eq_one_of_mem hnd hid
    have hcnt : (matched.map StockRecord.offer_id ++ rest).count id = 1 := by
      rw [hperm.count_eq]; exact hcnt_ids
    rw [List.count_append] at hcnt
    rw [List.count_eq_zero_of_not_mem hnotin] at hcnt
    simp at hcnt
    constructor
    · rw [← h, List.count_append]
      have h1 : matched.count ⟨id, 0⟩ = 0 := by
        rw [List.count_eq_zero]
        intro hmem
        exact hnotin (List.mem_map.mpr ⟨⟨id, 0⟩, hmem, rfl⟩)
      have h2 : (rest.map fun c => (⟨c, 0⟩ : StockRecord)).count ⟨id, 0⟩ = 1 := by
        have hinj : Function.Injective (fun c => (⟨c, 0⟩ : StockRecord)) := by
          intro a b hab; simpa using hab
        have := List.count_map_of_injective rest
          (fun c => (⟨c, 0⟩ : StockRecord)) hinj id
        rw [this, hcnt]
      rw [h1, h2]
    · intro r hr hrid
      rw [← h] at hr
      rcases List.mem_append.mp hr with h1 | h1
      · exact absurd (List.mem_map.mpr ⟨r, h1, hrid⟩) hnotin
      · obtain ⟨c, _, hc⟩ := List.mem_map.mp h1
        rw [← hc]
        rw [← hc] at hrid
        simp at hrid
        rw [hrid]

/-- C1: for every supplier remnant list and duplicate-free offer-id list,
`create_stocks` computes a set difference: the result has exactly one record
per input offer id and none for any other id; matched ids carry the remnant's
normalized quantity and the leftover ids are appended afterwards (as
zero-stock records); the Yandex.Market variant has the same id multiset. -/
theorem claim_C1_create_stocks_set_difference
    (ws : List Watch) (ids : List String) (hnd : ids.Nodup) :
    (∀ out, create_stocks ws ids = some out →
      (∀ id, (out.map StockRecord.offer_id).count id = if id ∈ ids then 1 else 0)
      ∧ ∃ (matched : List StockRecord) (rest : List String),
          out = matched ++ rest.map (fun c => (⟨c, 0⟩ : StockRecord))
          ∧ rest.Sublist ids
          ∧ ∀ r ∈ matched, ∃ w ∈ ws, w.kod = r.offer_id ∧
              normalizeCount w.kolichestvo = some r.stock)
    ∧ (∀ warehouse_id date out,
        market_create_stocks ws ids warehouse_id date = some out →
        ∀ id, (out.map MarketStockRecord.sku).count id =
          if id ∈ ids then 1 else 0) := by
  constructor
  · intro out h
    refine ⟨create_stocks_count ws ids hnd out h, ?_⟩
    rw [create_stocks] at h
    cases hl : create_stocks_loop ws ids with
    | none => rw [hl] at h; simp at h
    | some p =>
      obtain ⟨matched, rest⟩ := p
      rw [hl] at h
      simp at h
      exact ⟨matched, rest, h.symm,
        create_stocks_loop_rest_sublist ws ids matched rest hl,
        create_stocks_loop_provenance ws ids matched rest hl⟩
  · intro warehouse_id date out h id
    rw [market_create_stocks_eq] at h
    cases hcs : create_stocks ws ids with
    | none => rw [hcs] at h; simp at h
    | some out₀ =>
      rw [hcs] at h
      simp at h
      have hmap : out.map MarketStockRecord.sku =
          out₀.map StockRecord.offer_id := by
        rw [← h, List.map_map]
        rfl
      rw [hmap]
      exact create_stocks_count ws ids hnd out₀ hcs id

/-- Witness for C1 at a concrete input. -/
theorem claim_C1_witness :
    (["111", "222"] : List String).Nodup
    ∧ create_stocks [⟨"111", "5", "p"⟩] ["111", "222"] =
        some [⟨"111", 5⟩, ⟨"222", 0⟩]
    ∧ ((∀ id, ((([⟨"111", 5⟩, ⟨"222", 0⟩] : List StockRecord)).map
          StockRecord.offer_id).count id =
          if id ∈ (["111", "222"] : List String) then 1 else 0)
      ∧ ∃ (matched : List StockRecord) (rest : List String),
          ([⟨"111", 5⟩, ⟨"222", 0⟩] : List StockRecord) =
            matched ++ rest.map (fun c => (⟨c, 0⟩ : StockRecord))
          ∧ rest.Sublist ["111", "222"]
          ∧ ∀ r ∈ matched, ∃ w ∈ ([⟨"111", "5", "p"⟩] : List Watch),
              w.kod = r.offer_id ∧ normalizeCount w.kolichestvo = some r.stock) :=
  ⟨by decide, by decide,
    (claim_C1_create_stocks_set_difference [⟨"111", "5", "p"⟩] ["111", "222"]
      (by decide)).1 [⟨"111", 5⟩, ⟨"222", 0⟩] (by decide)⟩

/-- C2: every offer id matched by no remnant code gets exactly one zero-stock
record (`stock = 0` for Ozon, `items[0].count = 0` for Yandex.Market): known
products unmatched by the feed are explicitly zeroed, not omitted. -/
theorem claim_C2_unmatched_ids_zeroed
    (ws : List Watch) (ids : List String) (hnd : ids.Nodup)
    (id : String) (hid : id ∈ ids) (hno : ∀ w ∈ ws, w.kod ≠ id) :
    (∀ out, create_stocks ws ids = some out →
      out.count ⟨id, 0⟩ = 1 ∧ ∀ r ∈ out, r.offer_id = id → r = ⟨id, 0⟩)
    ∧ (∀ warehouse_id date out,
        market_create_stocks ws ids warehouse_id date = some out →
        out.count ⟨id, warehouse_id, [⟨0, "FIT", date⟩]⟩ = 1) := by
  constructor
  · intro out h
    exact create_stocks_unmatched ws ids hnd id hid hno out h
  · intro warehouse_id date out h
    rw [market_create_stocks_eq] at h
    cases hcs : create_stocks ws ids with
    | none => rw [hcs] at h; simp at h
    | some out₀ =>
      rw [hcs] at h
      simp at h
      have hc := (create_stocks_unmatched ws ids hnd id hid hno out₀ hcs).1
      have : out.count (toMarketRec warehouse_id date ⟨id, 0⟩) = 1 := by
        rw [← h, List.count_map_of_injective out₀ _
          (toMarketRec_injective warehouse_id date), hc]
      exact this

/-- Witness for C2 at a concrete input. -/
theorem claim_C2_witness :
    (["111", "222"] : List String).Nodup
    ∧ ("222" : String) ∈ (["111", "222"] : List String)
    ∧ (∀ w ∈ ([⟨"111", "5", "p"⟩] : List Watch), w.kod ≠ "222")
    ∧ create_stocks [⟨"111", "5", "p"⟩] ["111", "222"] =
        some [⟨"111", 5⟩, ⟨"222", 0⟩]
    ∧ ([⟨"111", 5⟩, ⟨"222", 0⟩] : List StockRecord).count ⟨"222", 0⟩ = 1 :=
  ⟨by decide, by decide, by decide, by decide,
    ((claim_C2_unmatched_ids_zeroed [⟨"111", "5", "p"⟩] ["111", "222"]
      (by decide) "222" (by decide) (by decide)).1
      [⟨"111", 5⟩, ⟨"222", 0⟩] (by decide)).1⟩

/-- C8: `seller.create_stocks` removes every matched id from the caller's
`offer_ids` list and only those; `seller.main` reuses that mutated list for
`create_prices`, which therefore yields a price record only for remnants
whose code was not matched during stock creation — in fact no record at all,
since with duplicate-free ids every remnant code present in the list is
matched and removed. -/
theorem claim_C8_mutation_excludes_matched_from_prices
    (ws : List Watch) (ids : List String) (hnd : ids.Nodup)
    (rest : List String)
    (h : create_stocks_final_offer_ids ws ids = some rest) :
    (∀ w ∈ ws, w.kod ∉ rest)
    ∧ rest.Sublist ids
    ∧ (∀ c ∈ ids, (∀ w ∈ ws, w.kod ≠ c) → c ∈ rest)
    ∧ create_prices ws rest = [] := by
  rw [create_stocks_final_offer_ids] at h
  cases hl : create_stocks_loop ws ids with
  | none => rw [hl] at h; simp at h
  | some p =>
    obtain ⟨matched, rest₀⟩ := p
    rw [hl] at h
    simp at h
    subst h
    have hunm := create_stocks_loop_rest_unmatched ws ids hnd matched rest₀ hl
    have hkod_not : ∀ w ∈ ws, w.kod ∉ rest₀ := by
      intro w hw hmem
      exact hunm w.kod hmem w hw rfl
    refine ⟨hkod_not, create_stocks_loop_rest_sublist ws ids matched rest₀ hl,
      ?_, ?_⟩
    · intro c hc hno
      have hperm := create_stocks_loop_perm ws ids matched rest₀ hl
      have hprov := create_stocks_loop_provenance ws ids matched rest₀ hl
      have hcnt : (matched.map StockRecord.offer_id ++ rest₀).count c = 1 := by
        rw [hperm.count_eq]
        exact List.count_eq_one_of_mem hnd hc
      have hnotin : c ∉ matched.map StockRecord.offer_id := by
        intro hmem
        obtain ⟨r, hr, hrid⟩ := List.mem_map.mp hmem
        obtain ⟨w, hw, hkod, _⟩ := hprov r hr
        exact hno w hw (hkod.trans hrid)
      rw [List.count_append, List.count_eq_zero_of_not_mem hnotin] at hcnt
      simp at hcnt
      exact List.count_pos_iff.mp (by omega)
    · rw [create_prices, List.filterMap_eq_nil_iff]
      intro w hw
      rw [if_neg (hkod_not w hw)]

/-- Witness for C8 at a concrete input. -/
theorem claim_C8_witness :
    (["111", "222"] : List String).Nodup
    ∧ create_stocks_final_offer_ids [⟨"111", "5", "p"⟩] ["111", "222"] =
        some ["222"]
    ∧ (∀ w ∈ ([⟨"111", "5", "p"⟩] : List Watch), w.kod ∉ (["222"] : List String))
    ∧ (["222"] : List String).Sublist ["111", "222"]
    ∧ create_prices [⟨"111", "5", "p"⟩] ["222"] = [] := by
  have hc := claim_C8_mutation_excludes_matched_from_prices
    [⟨"111", "5", "p"⟩] ["111", "222"] (by decide) ["222"] (by decide)
  exact ⟨by decide, by decide, hc.1, hc.2.1, hc.2.2.2⟩

/-- `divide` on the empty list yields no chunks. -/
theorem divide_nil (α : Type) (n : Nat) : divide ([] : List α) n = [] := by
  rw [divide]; simp

/-- `divide` on a one-element list with a positive chunk size yields one
one-element chunk. -/
theorem divide_singleton {α : Type} (x : α) (n : Nat) (hn : n ≠ 0) :
    divide [x] n = [[x]] := by
  rw [divide, if_neg (by simp [hn])]
  rw [List.take_of_length_le (by simp; omega),
    List.drop_eq_nil_of_le (by simp; omega), divide_nil]

/-- C3: every chunk of `divide(lst, n)` with `n > 0` has at most `n` elements,
and each upload routine batches through `divide` with its fixed ceiling
(Ozon: 100 for stocks, 1000 for prices; Yandex.Market: 2000 for stocks, 500
for prices), so no request carries more items than the ceiling. -/
theorem claim_C3_batches_respect_ceilings :
    (∀ (α : Type) (lst : List α) (n : Nat), 0 < n →
      ∀ c ∈ divide lst n, c.length ≤ n)
    ∧ (∀ ws ids bs, seller_upload_stocks_batches ws ids = some bs →
        ∀ c ∈ bs, c.length ≤ 100)
    ∧ (∀ ws ids, ∀ c ∈ seller_upload_prices_batches ws ids, c.length ≤ 1000)
    ∧ (∀ ws ids warehouse_id date bs,
        market_upload_stocks_batches ws ids warehouse_id date = some bs →
        ∀ c ∈ bs, c.length ≤ 2000)
    ∧ (∀ ws ids bs, market_upload_prices_batches ws ids = some bs →
        ∀ c ∈ bs, c.length ≤ 500) := by
  refine ⟨divide_chunk_length_le, ?_, ?_, ?_, ?_⟩
  · intro ws ids bs h c hc
    rw [seller_upload_stocks_batches] at h
    cases hcs : create_stocks ws ids with
    | none => rw [hcs] at h; simp at h
    | some stocks =>
      rw [hcs] at h
      simp at h
      exact divide_chunk_length_le _ stocks 100 (by omega) c (h ▸ hc)
  · intro ws ids c hc
    exact divide_chunk_length_le _ _ 1000 (by omega) c hc
  · intro ws ids warehouse_id date bs h c hc
    rw [market_upload_stocks_batches] at h
    cases hcs : market_create_stocks ws ids warehouse_id date with
    | none => rw [hcs] at h; simp at h
    | some stocks =>
      rw [hcs] at h
      simp at h
      exact divide_chunk_length_le _ stocks 2000 (by omega) c (h ▸ hc)
  · intro ws ids bs h c hc
    rw [market_upload_prices_batches] at h
    cases hcs : market_create_prices ws ids with
    | none => rw [hcs] at h; simp at h
    | some prices =>
      rw [hcs] at h
      simp at h
      exact divide_chunk_length_le _ prices 500 (by omega) c (h ▸ hc)

/-- Witness for C3 at a concrete input. -/
theorem claim_C3_witness :
    0 < 2
    ∧ (∀ c ∈ divide (["x", "y", "z"] : List String) 2, c.length ≤ 2)
    ∧ seller_upload_stocks_batches [] ["a"] = some [[⟨"a", 0⟩]]
    ∧ ∀ c ∈ ([[(⟨"a", 0⟩ : StockRecord)]] : List (List StockRecord)),
        c.length ≤ 100 :=
  ⟨by omega,
   claim_C3_batches_respect_ceilings.1 String ["x", "y", "z"] 2 (by omega),
   by simp [seller_upload_stocks_batches, create_stocks, create_stocks_loop,
     divide_singleton],
   claim_C3_batches_respect_ceilings.2.1 [] ["a"] [[⟨"a", 0⟩]]
     (by simp [seller_upload_stocks_batches, create_stocks, create_stocks_loop,
       divide_singleton])⟩

/-- C4: chunking preserves content and order: for `n > 0`, concatenating the
chunks of `divide(lst, n)` in order yields `lst` exactly, so the union of the
uploaded batches is exactly the reconciled record set. -/
theorem claim_C4_divide_preserves_content (α : Type) (lst : List α) (n : Nat)
    (h : 0 < n) : (divide lst n).flatten = lst :=
  divide_flatten α lst n h

/-- Witness for C4 at a concrete input. -/
theorem claim_C4_witness :
    0 < 2 ∧ (divide ([3, 1, 4, 1, 5] : List Nat) 2).flatten = [3, 1, 4, 1, 5] :=
  ⟨by omega, claim_C4_divide_preserves_content Nat [3, 1, 4, 1, 5] 2 (by omega)⟩

/-- C5: `main` catches exactly the three clauses `ReadTimeout`,
`ConnectionError`, `Exception` in order, each only printing, and every
exception class raised in the guarded block is caught by one of them (so none
escapes); `ReadTimeout` hits the first clause, `ConnectionError` and its
subclass `ConnectTimeout` the second, everything else the catch-all. -/
theorem claim_C5_main_catches_and_prints :
    main_handle (Except.ok ()) = MainOutcome.completed
    ∧ (∀ e, catch_exception e =
        some (if e = ExcClass.ReadTimeout then ExcClass.ReadTimeout
          else if e = ExcClass.ConnectTimeout ∨ e = ExcClass.ConnectionErr then
            ExcClass.ConnectionErr
          else ExcClass.Exception))
    ∧ (∀ e, main_handle (Except.error e) =
        MainOutcome.printedMessage
          (if e = ExcClass.ReadTimeout then HandlerAction.printTimeout
           else if e = ExcClass.ConnectTimeout ∨ e = ExcClass.ConnectionErr then
             HandlerAction.printConnection
           else HandlerAction.printOther))
    ∧ (∀ e e', main_handle (Except.error e) ≠ MainOutcome.escaped e') := by
  refine ⟨rfl, by decide, by decide, by decide⟩

/-- Witness for C5 at a concrete exception class. -/
theorem claim_C5_witness :
    main_handle (Except.error ExcClass.ValueError) =
      MainOutcome.printedMessage HandlerAction.printOther :=
  claim_C5_main_catches_and_prints.2.2.1 ExcClass.ValueError

/-- C6: when the response stream signals its end (Ozon: reported total equals
the accumulated count at the last page and at no earlier one; Yandex.Market:
empty `nextPageToken` exactly at the last page), `get_offer_ids` returns the
identifiers of all pages concatenated in page order. -/
theorem claim_C6_get_offer_ids_collects_all
    (ozonPages : List OzonPage) (marketPages : List MarketPage)
    (h1 : ozonEndsCleanly ozonPages 0 = true)
    (h2 : marketEndsCleanly marketPages = true) :
    ozon_get_offer_ids ozonPages =
      some (((ozonPages.map OzonPage.items).flatten).map OzonProduct.offer_id)
    ∧ market_get_offer_ids marketPages =
      some (((marketPages.map MarketPage.offerMappingEntries).flatten).map
        MarketEntry.shopSku) := by
  constructor
  · rw [ozon_get_offer_ids, ozon_collect_clean ozonPages [] (by simpa using h1)]
    simp
  · rw [market_get_offer_ids, market_collect_clean marketPages [] h2]
    simp

/-- Witness for C6 at a concrete input. -/
theorem claim_C6_witness :
    ozonEndsCleanly [⟨[⟨"a"⟩, ⟨"b"⟩], 3, "x"⟩, ⟨[⟨"c"⟩], 3, "y"⟩] 0 = true
    ∧ marketEndsCleanly [⟨[⟨"d"⟩], "t"⟩, ⟨[⟨"e"⟩], ""⟩] = true
    ∧ ozon_get_offer_ids [⟨[⟨"a"⟩, ⟨"b"⟩], 3, "x"⟩, ⟨[⟨"c"⟩], 3, "y"⟩] =
        some ["a", "b", "c"]
    ∧ market_get_offer_ids [⟨[⟨"d"⟩], "t"⟩, ⟨[⟨"e"⟩], ""⟩] = some ["d", "e"] := by
  have hc := claim_C6_get_offer_ids_collects_all
    [⟨[⟨"a"⟩, ⟨"b"⟩], 3, "x"⟩, ⟨[⟨"c"⟩], 3, "y"⟩]
    [⟨[⟨"d"⟩], "t"⟩, ⟨[⟨"e"⟩], ""⟩] (by decide) (by decide)
  exact ⟨by decide, by decide, hc.1, hc.2⟩

/-- C7: the pagination loop terminates within the response stream whenever
some page satisfies its break condition (Ozon: reported total equals the
running count; Yandex.Market: empty `nextPageToken`): the loop returns a
result instead of requesting pages beyond the stream. -/
theorem claim_C7_pagination_terminates
    (ozonPages : List OzonPage) (marketPages : List MarketPage)
    (h1 : ozonHasSignal ozonPages 0 = true)
    (h2 : ∃ p ∈ marketPages, p.nextPageToken = "") :
    (ozon_get_offer_ids ozonPages).isSome
    ∧ (market_get_offer_ids marketPages).isSome := by
  constructor
  · have ho := ozon_collect_terminates ozonPages [] (by simpa using h1)
    rw [ozon_get_offer_ids]
    cases hr : ozon_collect ozonPages [] with
    | none => rw [hr] at ho; simp at ho
    | some l => simp
  · have hm := market_collect_terminates marketPages [] h2
    rw [market_get_offer_ids]
    cases hr : market_collect marketPages [] with
    | none => rw [hr] at hm; simp at hm
    | some l => simp

/-- Witness for C7 at a concrete input. -/
theorem claim_C7_witness :
    ozonHasSignal [⟨[⟨"a"⟩], 5, "x"⟩, ⟨[⟨"b"⟩], 2, "y"⟩] 0 = true
    ∧ (∃ p ∈ ([⟨[⟨"d"⟩], "t"⟩, ⟨[⟨"e"⟩], ""⟩] : List MarketPage),
        p.nextPageToken = "")
    ∧ (ozon_get_offer_ids [⟨[⟨"a"⟩], 5, "x"⟩, ⟨[⟨"b"⟩], 2, "y"⟩]).isSome
    ∧ (market_get_offer_ids [⟨[⟨"d"⟩], "t"⟩, ⟨[⟨"e"⟩], ""⟩]).isSome := by
  have hc := claim_C7_pagination_terminates
    [⟨[⟨"a"⟩], 5, "x"⟩, ⟨[⟨"b"⟩], 2, "y"⟩]
    [⟨[⟨"d"⟩], "t"⟩, ⟨[⟨"e"⟩], ""⟩] (by decide)
    ⟨⟨[⟨"e"⟩], ""⟩, by decide, rfl⟩
  exact ⟨by decide, ⟨⟨[⟨"e"⟩], ""⟩, by decide, rfl⟩, hc.1, hc.2⟩

/-- C9: the quantity normalization maps the literal `">10"` to 100, the
literal `"1"` to 0, and any other string through `int(...)`, which raises on
non-numeric input — a failure that propagates out of `create_stocks`. -/
theorem claim_C9_quantity_normalization :
    normalizeCount ">10" = some 100
    ∧ normalizeCount "1" = some 0
    ∧ (∀ s, s ≠ ">10" → s ≠ "1" → normalizeCount s = pyInt s)
    ∧ pyInt "5" = some 5
    ∧ pyInt "abc" = none
    ∧ create_stocks [⟨"A", ">10", ""⟩, ⟨"B", "1", ""⟩, ⟨"C", "5", ""⟩]
        ["A", "B", "C"] = some [⟨"A", 100⟩, ⟨"B", 0⟩, ⟨"C", 5⟩]
    ∧ create_stocks [⟨"D", "abc", ""⟩] ["D"] = none
    ∧ (∀ warehouse_id date,
        market_create_stocks [⟨"A", ">10", ""⟩] ["A"] warehouse_id date =
          some [⟨"A", warehouse_id, [⟨100, "FIT", date⟩]⟩]) := by
  refine ⟨by decide, by decide, ?_, by decide, by decide, by decide, by decide, ?_⟩
  · intro s h1 h2
    rw [normalizeCount, if_neg h1, if_neg h2]
  · intro warehouse_id date
    rw [market_create_stocks_eq]
    have : create_stocks [⟨"A", ">10", ""⟩] ["A"] = some [⟨"A", 100⟩] := by decide
    rw [this]
    rfl

/-- Witness for C9 at a concrete input. -/
theorem claim_C9_witness :
    ("7" : String) ≠ ">10" ∧ ("7" : String) ≠ "1"
    ∧ normalizeCount "7" = pyInt "7" :=
  ⟨by decide, by decide,
    claim_C9_quantity_normalization.2.2.1 "7" (by decide) (by decide)⟩

/-- The hand-rolled split-before-dot agrees with `takeWhile`. -/
theorem takeBeforeFirstDot_eq_takeWhile :
    ∀ l : List Char, takeBeforeFirstDot l = l.takeWhile (fun c => c != '.') := by
  intro l
  induction l with
  | nil => rfl
  | cons c cs ih =>
    rw [takeBeforeFirstDot, List.takeWhile_cons]
    by_cases h : c = '.'
    · simp [h]
    · simp [h, ih]

/-- `Char.isDigit` is exactly membership in the character range 0-9. -/
theorem isDigit_eq_range (c : Char) :
    c.isDigit = decide ('0' ≤ c ∧ c ≤ '9') := by
  rw [Char.isDigit]
  by_cases h : '0' ≤ c ∧ c ≤ '9'
  · rw [decide_eq_true h]
    have h1 : (48 : UInt32) ≤ c.val := h.1
    have h2 : c.val ≤ (57 : UInt32) := h.2
    simp [h1, h2]
  · rw [decide_eq_false h]
    rw [Decidable.not_and_iff_or_not] at h
    rcases h with h | h
    · have : ¬(48 : UInt32) ≤ c.val := h
      simp [this]
    · have : ¬c.val ≤ (57 : UInt32) := h
      simp [this]

/-- C10: `price_conversion` returns exactly the digit characters of the
substring before the first dot, dropping (never rounding) any fractional
part; `market.create_prices` then parses that string with `int(...)`. -/
theorem claim_C10_price_conversion_truncates :
    (∀ s, price_conversion s = price_conversion_spec s)
    ∧ price_conversion "5'990.00 руб." = "5990"
    ∧ (∀ kod kol cena ids, kod ∈ ids →
        market_create_prices [⟨kod, kol, cena⟩] ids =
          (pyInt (price_conversion cena)).map (fun v => [⟨kod, v, "RUR"⟩])) := by
  refine ⟨?_, by decide, ?_⟩
  · intro s
    rw [price_conversion, price_conversion_spec, reKeepDigits,
      takeBeforeFirstDot_eq_takeWhile]
    congr 1
    apply List.filter_congr
    intro c _
    exact isDigit_eq_range c
  · intro kod kol cena ids hmem
    rw [market_create_prices, if_pos hmem]
    cases hp : pyInt (price_conversion cena) with
    | none => simp
    | some v => simp [market_create_prices]

/-- Witness for C10 at a concrete input. -/
theorem claim_C10_witness :
    ("111" : String) ∈ (["111"] : List String)
    ∧ market_create_prices [⟨"111", "5", "5'990.00 руб."⟩] ["111"] =
        (pyInt (price_conversion "5'990.00 руб.")).map
          (fun v => [⟨"111", v, "RUR"⟩]) :=
  ⟨by decide,
    claim_C10_price_conversion_truncates.2.2 "111" "5" "5'990.00 руб." ["111"]
      (by decide)⟩
